import Mathlib

/-!
Verification of the node-identifier collection core (GIDCollection) of this
repository.  The collection implementation itself is kernel-side code that is
not part of the Python sources; the model below is therefore built from the
specification (data model in spec §3, operations in spec §4), and every place
where the Python test-suite `test_GIDCollection.py` pins the observable
behaviour, the model follows the tests.
-/

namespace NestColl

/-- Modelled from the spec: a `PrimitiveRange` (spec §3) is a contiguous run
of identifiers `first..last` sharing one metadata tag (model id).  The kernel
class that realises it is not in the Python sources. -/
structure PrimitiveRange where
  first : Nat
  last : Nat
  tag : Nat
deriving DecidableEq

/-- Modelled from the spec: the identifier sequence denoted by a
`PrimitiveRange`, namely `first, first+1, ..., last`, ascending. -/
def expandRange (r : PrimitiveRange) : List Nat :=
  (List.range (r.last + 1 - r.first)).map (fun i => r.first + i)

/-- Modelled from the spec: the identifier sequence denoted by an ordered
list of primitive ranges (a RangeList, spec §3), by concatenation. -/
def expandParts : List PrimitiveRange → List Nat
  | [] => []
  | r :: rest => expandRange r ++ expandParts rest

/-- Modelled from the spec: cached total element count of a RangeList
(spec §3: sum of `last - first + 1` over all ranges). -/
def totalSize : List PrimitiveRange → Nat
  | [] => 0
  | r :: rest => (r.last + 1 - r.first) + totalSize rest

/-- Modelled from the spec: number of logical indices selected by a slice
window `(start, stop, step)` over a sequence of length `len`, which is
`ceil((min stop len - start) / step)` (spec §4.4). -/
def winLen (s e t len : Nat) : Nat :=
  (min e len - s + (t - 1)) / t

/-- Modelled from the spec: applying a slice window `(s, e, t)` to a
sequence: the elements at logical indices `s, s+t, s+2t, ...` below
`min e len`. -/
def applyWindow (s e t : Nat) (l : List Nat) : List Nat :=
  (List.range (winLen s e t l.length)).map (fun i => l.getD (s + i * t) 0)

/-- Modelled from the spec: a Collection (spec §3) is either a single
contiguous primitive range, or a composite: an ordered list of primitive
ranges together with a slice window `(start, stop, step)` over the global
logical index of the concatenated parts. -/
inductive Collection where
  | primitive (first last tag : Nat)
  | composite (parts : List PrimitiveRange) (start stop step : Nat)
deriving DecidableEq

/-- Modelled from the spec: the error kinds of the collection core
(spec §7). -/
inductive CollError where
  | OverlapError
  | CompositionError
  | IndexOutOfRangeError
  | UnsupportedSliceError
deriving DecidableEq

/-- Decidable equality for fallible results, so that concrete runs of the
model can be checked by evaluation. -/
instance {ε α : Type} [DecidableEq ε] [DecidableEq α] : DecidableEq (Except ε α) := fun a b =>
  match a, b with
  | .ok x, .ok y =>
    if h : x = y then .isTrue (by rw [h]) else .isFalse (by intro hc; cases hc; exact h rfl)
  | .error x, .error y =>
    if h : x = y then .isTrue (by rw [h]) else .isFalse (by intro hc; cases hc; exact h rfl)
  | .ok _, .error _ => .isFalse (by intro hc; cases hc)
  | .error _, .ok _ => .isFalse (by intro hc; cases hc)

/-- Modelled from the spec: the primitive ranges underlying a Collection. -/
def Collection.partsOf : Collection → List PrimitiveRange
  | .primitive f l t => [⟨f, l, t⟩]
  | .composite ps _ _ _ => ps

/-- Modelled from the spec: iteration of a Collection (spec §4.5) yields the
identifiers of its parts in order, filtered through the slice window. -/
def Collection.toList : Collection → List Nat
  | .primitive f l _ => expandRange ⟨f, l, 0⟩
  | .composite ps s e t => applyWindow s e t (expandParts ps)

/-- Modelled from the spec: the cached O(1) length of a Collection
(spec §4.4), computed from range sizes and the window arithmetic. -/
def Collection.len : Collection → Nat
  | .primitive f l _ => l + 1 - f
  | .composite ps s e t => winLen s e t (totalSize ps)

/-- Modelled from the spec: the tag (model id) of an identifier, found by
locating the owning primitive range (spec §4.5). -/
def Collection.idTag (C : Collection) (x : Nat) : Nat :=
  match C.partsOf.find? (fun r => r.first ≤ x && x ≤ r.last) with
  | some r => r.tag
  | none => 0

/-- Modelled from the spec: the fully expanded (identifier, tag) sequence a
Collection denotes; spec §4.4 defines equality through this expansion, and
the test `test_equal` shows the tags take part (collections over the same
identifiers but different models compare unequal). -/
def Collection.pairs (C : Collection) : List (Nat × Nat) :=
  C.toList.map (fun x => (x, C.idTag x))

/-- Modelled from the spec: Collection equality (spec §4.4): two Collections
are equal iff they denote identical ordered (identifier, tag) sequences. -/
def Collection.beq (a b : Collection) : Bool :=
  a.pairs == b.pairs

/-- Modelled from the spec: ascending sort plus deduplication used by
construction from an explicit identifier list (spec §3, §4.1); the test
`test_list_to_GIDCollection` pins this (input `[7,3,8,5,2]` iterates as
`[2,3,5,7,8]`). -/
def sortDedup (l : List Nat) : List Nat :=
  List.insertionSort (· ≤ ·) l.dedup

/-- Modelled from the spec: collapse an ascending duplicate-free identifier
list into maximal contiguous same-tag primitive ranges (spec §4.1). -/
def collapse (tagOf : Nat → Nat) : List Nat → List PrimitiveRange
  | [] => []
  | x :: xs =>
    match collapse tagOf xs with
    | [] => [⟨x, x, tagOf x⟩]
    | r :: rs =>
      if x + 1 = r.first ∧ tagOf x = r.tag then ⟨x, r.last, r.tag⟩ :: rs
      else ⟨x, x, tagOf x⟩ :: r :: rs

/-- Modelled from the spec: package a canonical RangeList as a Collection: a
single range stays primitive, anything else becomes a composite with the
trivial (full) window. -/
def mkColl : List PrimitiveRange → Collection
  | [r] => .primitive r.first r.last r.tag
  | ps => .composite ps 0 (totalSize ps) 1

/-- Modelled from the spec: construction of a Collection from an explicit
identifier list (spec §3): sort ascending, deduplicate, and collapse
contiguous same-tag runs.  `tagOf` is the metadata resolver collaborator
(spec §2); resolver-validity failures are outside the modelled claims. -/
def fromList (tagOf : Nat → Nat) (l : List Nat) : Collection :=
  mkColl (collapse tagOf (sortDedup l))

/-- Modelled from the spec: whether a composite Collection carries a
non-trivial slice window (spec §3 invariant); such a Collection refuses
concatenation. -/
def Collection.isWindowedComposite : Collection → Bool
  | .primitive _ _ _ => false
  | .composite ps s e t => !(t == 1 && s == 0 && e == totalSize ps)

/-- Modelled from the spec: sort primitive ranges ascending by their first
identifier, re-establishing the canonical RangeList order (spec §3) after a
concatenation; the test `test_GIDCollection_addition` pins this
(`nodes_b + nodes_a` iterates ascending). -/
def sortParts (ps : List PrimitiveRange) : List PrimitiveRange :=
  List.insertionSort (fun r s => r.first ≤ s.first) ps

/-- Modelled from the spec: check that consecutive ranges are strictly
separated (`r.last < s.first`), i.e. the concatenated identifier sets are
disjoint once sorted. -/
def sepB : List PrimitiveRange → Bool
  | [] => true
  | [_] => true
  | r :: s :: rest => decide (r.last < s.first) && sepB (s :: rest)

/-- Modelled from the spec: merge adjacent contiguous same-tag ranges into
one (spec §4.3 merge optimisation, spec §3 canonical form). -/
def mergeAdj : List PrimitiveRange → List PrimitiveRange
  | [] => []
  | r :: rest =>
    match mergeAdj rest with
    | [] => [r]
    | s :: qs =>
      if r.last + 1 = s.first ∧ r.tag = s.tag then ⟨r.first, s.last, r.tag⟩ :: qs
      else r :: s :: qs

/-- Modelled from the spec: concatenation `a + b` (spec §4.3): refused with
`CompositionError` when either operand is a windowed composite; otherwise the
parts are combined in canonical ascending order, refused with `OverlapError`
when the identifier sets are not disjoint, and adjacent contiguous same-tag
ranges merge into a primitive. -/
def Collection.concat (a b : Collection) : Except CollError Collection :=
  if a.isWindowedComposite || b.isWindowedComposite then
    .error .CompositionError
  else if sepB (sortParts (a.partsOf ++ b.partsOf)) then
    .ok (mkColl (mergeAdj (sortParts (a.partsOf ++ b.partsOf))))
  else .error .OverlapError

/-- Modelled from the spec: resolve a slice start bound against a length:
negative values count from the end, and the result is clamped into
`[0, len]` (spec §4.2). -/
def resolvePoint (len : Nat) (v : Int) : Nat :=
  if v < 0 then (v + len).toNat else min v.toNat len

/-- Modelled from the spec: resolve a slice stop bound against a length.  A
negative stop counts from the end and is inclusive, as the test
`test_slicing` pins (`n[:-3:]` over ten elements keeps eight): the stop
identifier itself is kept, so `-v` resolves to `len + v + 1`. -/
def resolveStop (len : Nat) (v : Int) : Nat :=
  if v < 0 then (v + len + 1).toNat else min v.toNat len

/-- Modelled from the spec: slicing `C[start:stop:step]` (spec §4.2):
Python-style defaults and negative bounds; a step below one is refused with
`UnsupportedSliceError`; a step-1 slice of a primitive stays primitive; any
other slice attaches (or composes with) a window over the parts. -/
def Collection.slice (C : Collection) (start? stop? : Option Int) (step : Int) :
    Except CollError Collection :=
  if step < 1 then .error .UnsupportedSliceError
  else
    let n := C.len
    let t := step.toNat
    let s := resolvePoint n (start?.getD 0)
    let e := resolveStop n (stop?.getD n)
    match C with
    | .primitive f l tag =>
      if t = 1 then
        if s < e then .ok (.primitive (f + s) (f + (e - 1)) tag)
        else .ok (.composite [] 0 0 1)
      else .ok (.composite [⟨f, l, tag⟩] s e t)
    | .composite ps s0 e0 t0 =>
      .ok (.composite ps (s0 + s * t0) (min (s0 + e * t0) e0) (t0 * t))

/-- Modelled from the spec: integer indexing `C[i]` (spec §4.2): negative
indices count from the end; out of range is refused with
`IndexOutOfRangeError`; the result is the single-element Collection holding
the selected identifier (test `test_indexing`: `n[0] == GIDCollection([1])`). -/
def normIdx (len : Nat) (i : Int) : Int :=
  if i < 0 then i + len else i

/-- Modelled from the spec: integer indexing resolves a possibly negative
index against the length; this is the index arithmetic of spec §4.2. -/
def Collection.get (C : Collection) (i : Int) : Except CollError Collection :=
  if 0 ≤ normIdx C.len i ∧ normIdx C.len i < (C.len : Int) then
    .ok (.primitive (C.toList.getD (normIdx C.len i).toNat 0)
      (C.toList.getD (normIdx C.len i).toNat 0)
      (C.idTag (C.toList.getD (normIdx C.len i).toNat 0)))
  else .error .IndexOutOfRangeError

/-- Modelled from the spec: well-formedness of one primitive range with
respect to the resolver `tagOf`: positive identifiers, `first ≤ last`, and
every identifier in the range carries the range's tag (spec §3). -/
def rangeWfB (tagOf : Nat → Nat) (r : PrimitiveRange) : Bool :=
  decide (0 < r.first) && decide (r.first ≤ r.last) &&
    (expandRange r).all (fun x => tagOf x == r.tag)

/-- Modelled from the spec: the data-model invariants of a Collection
(spec §3): well-formed ranges, strictly separated ascending parts, and a
window step of at least one. -/
def Collection.wfB (tagOf : Nat → Nat) : Collection → Bool
  | .primitive f l t => rangeWfB tagOf ⟨f, l, t⟩
  | .composite ps _ _ t => decide (1 ≤ t) && sepB ps && ps.all (rangeWfB tagOf)


/-! Basic properties of range expansion. -/

theorem expandRange_length (r : PrimitiveRange) :
    (expandRange r).length = r.last + 1 - r.first := by
  simp [expandRange]

theorem mem_expandRange {x : Nat} {r : PrimitiveRange} :
    x ∈ expandRange r ↔ r.first ≤ x ∧ x ≤ r.last := by
  simp only [expandRange, List.mem_map, List.mem_range]
  constructor
  · rintro ⟨i, hi, rfl⟩; omega
  · rintro ⟨h1, h2⟩; exact ⟨x - r.first, by omega, by omega⟩

theorem expandRange_getD {i : Nat} {r : PrimitiveRange} (h : i < r.last + 1 - r.first) :
    (expandRange r).getD i 0 = r.first + i := by
  rw [List.getD_eq_getElem _ _ (by simpa [expandRange_length] using h)]
  simp [expandRange]

theorem expandRange_sorted (r : PrimitiveRange) : (expandRange r).Sorted (· < ·) := by
  refine List.Pairwise.map _ ?_ (List.sorted_lt_range (r.last + 1 - r.first))
  intro a b hab
  omega

theorem totalSize_eq (ps : List PrimitiveRange) : totalSize ps = (expandParts ps).length := by
  induction ps with
  | nil => rfl
  | cons r rest ih => simp [totalSize, expandParts, expandRange_length, ih]

theorem expandParts_append (ps qs : List PrimitiveRange) :
    expandParts (ps ++ qs) = expandParts ps ++ expandParts qs := by
  induction ps with
  | nil => rfl
  | cons r rest ih => simp [expandParts, ih]

theorem mem_expandParts {x : Nat} {ps : List PrimitiveRange} :
    x ∈ expandParts ps ↔ ∃ r, r ∈ ps ∧ r.first ≤ x ∧ x ≤ r.last := by
  induction ps with
  | nil => simp [expandParts]
  | cons r rest ih =>
    simp only [expandParts, List.mem_append, mem_expandRange, ih, List.mem_cons]
    constructor
    · rintro (h | ⟨q, hq, h⟩)
      · exact ⟨r, Or.inl rfl, h⟩
      · exact ⟨q, Or.inr hq, h⟩
    · rintro ⟨q, (rfl | hq), h⟩
      · exact Or.inl h
      · exact Or.inr ⟨q, hq, h⟩

theorem expandParts_perm {ps qs : List PrimitiveRange} (h : ps.Perm qs) :
    (expandParts ps).Perm (expandParts qs) := by
  induction h with
  | nil => exact List.Perm.refl _
  | cons r _ ih => exact ih.append_left (expandRange r)
  | swap x y l =>
    show (expandRange y ++ (expandRange x ++ expandParts l)).Perm
      (expandRange x ++ (expandRange y ++ expandParts l))
    rw [← List.append_assoc, ← List.append_assoc]
    exact List.perm_append_comm.append_right _
  | trans _ _ ih1 ih2 => exact ih1.trans ih2

/-! Properties of the slice-window arithmetic. -/

theorem lt_winLen_iff {k s e t len : Nat} (ht : 1 ≤ t) :
    k < winLen s e t len ↔ s + k * t < min e len := by
  unfold winLen
  generalize min e len = m
  rw [Nat.lt_iff_add_one_le, Nat.le_div_iff_mul_le (by omega : 0 < t)]
  have h1 : (k + 1) * t = k * t + t := by ring
  rw [h1]
  generalize k * t = a
  omega

theorem applyWindow_length (s e t : Nat) (l : List Nat) :
    (applyWindow s e t l).length = winLen s e t l.length := by
  simp [applyWindow]

theorem applyWindow_getD {s e t k : Nat} {l : List Nat}
    (hk : k < winLen s e t l.length) :
    (applyWindow s e t l).getD k 0 = l.getD (s + k * t) 0 := by
  rw [List.getD_eq_getElem _ _ (by simpa [applyWindow_length] using hk)]
  simp [applyWindow]

theorem applyWindow_full {l : List Nat} {N : Nat} (h : l.length = N) :
    applyWindow 0 N 1 l = l := by
  subst h
  apply List.ext_getElem
  · simp [applyWindow_length, winLen]
  · intro i h1 h2
    simp only [applyWindow, List.getElem_map, List.getElem_range]
    have hidx : 0 + i * 1 = i := by omega
    rw [hidx, List.getD_eq_getElem _ _ h2]

theorem mem_applyWindow {x s e t : Nat} {l : List Nat}
    (hx : x ∈ applyWindow s e t l) : x ∈ l := by
  rcases t with _ | t'
  · simp [applyWindow, winLen] at hx
  · obtain ⟨i, hi, rfl⟩ := List.mem_map.mp hx
    rw [List.mem_range] at hi
    have hb := (lt_winLen_iff (by omega : 1 ≤ t' + 1)).mp hi
    rw [List.getD_eq_getElem _ _ (by omega)]
    exact List.getElem_mem _

theorem applyWindow_sorted {s e t : Nat} {l : List Nat} (ht : 1 ≤ t)
    (hl : l.Sorted (· < ·)) : (applyWindow s e t l).Sorted (· < ·) := by
  rw [List.Sorted, List.pairwise_iff_getElem]
  intro i j hi hj hij
  simp only [applyWindow_length] at hi hj
  simp only [applyWindow, List.getElem_map, List.getElem_range]
  have hbi := (lt_winLen_iff ht).mp hi
  have hbj := (lt_winLen_iff ht).mp hj
  have hlt : s + i * t < s + j * t := by
    have := (Nat.mul_lt_mul_right (by omega : 0 < t)).mpr hij
    omega
  rw [List.getD_eq_getElem _ _ (by omega), List.getD_eq_getElem _ _ (by omega)]
  have := hl.get_strictMono
    (show (⟨s + i * t, by omega⟩ : Fin l.length) < ⟨s + j * t, by omega⟩ from hlt)
  simpa using this

/-! Separation of ranges and sortedness of the concatenated expansion. -/

theorem sepB_iff_chain {ps : List PrimitiveRange} :
    sepB ps = true ↔ List.Chain' (fun a b : PrimitiveRange => a.last < b.first) ps := by
  induction ps with
  | nil => simp [sepB]
  | cons r rest ih =>
    cases rest with
    | nil => simp [sepB]
    | cons s rest2 =>
      simp [sepB, List.chain'_cons, Bool.and_eq_true, decide_eq_true_eq, ih]

theorem chain_sep_lt {r : PrimitiveRange} {rest : List PrimitiveRange}
    (hwf : ∀ q ∈ rest, q.first ≤ q.last)
    (hch : List.Chain' (fun a b : PrimitiveRange => a.last < b.first) (r :: rest)) :
    ∀ s ∈ rest, r.last < s.first := by
  induction rest generalizing r with
  | nil => intro s hs; cases hs
  | cons s rest2 ih =>
    intro q hq
    rw [List.chain'_cons] at hch
    rcases List.mem_cons.mp hq with rfl | hq2
    · exact hch.1
    · have hs := hwf s (List.mem_cons_self s rest2)
      have := ih (fun p hp => hwf p (List.mem_cons_of_mem _ hp)) hch.2 q hq2
      omega

theorem sorted_expandParts {ps : List PrimitiveRange}
    (hwf : ∀ r ∈ ps, r.first ≤ r.last)
    (hch : List.Chain' (fun a b : PrimitiveRange => a.last < b.first) ps) :
    (expandParts ps).Sorted (· < ·) := by
  induction ps with
  | nil => exact List.sorted_nil
  | cons r rest ih =>
    show ((expandRange r ++ expandParts rest)).Sorted (· < ·)
    rw [List.Sorted, List.pairwise_append]
    refine ⟨expandRange_sorted r,
      ih (fun q hq => hwf q (List.mem_cons_of_mem _ hq)) hch.tail, ?_⟩
    intro a ha b hb
    rw [mem_expandRange] at ha
    obtain ⟨q, hq, hbq⟩ := mem_expandParts.mp hb
    have := chain_sep_lt (fun p hp => hwf p (List.mem_cons_of_mem _ hp)) hch q hq
    omega

/-! Properties of `collapse`: the ranges are well formed, carry consistent
tags, and expand back to the input list. -/

theorem collapse_eq_nil {tagOf : Nat → Nat} {m : List Nat} :
    collapse tagOf m = [] ↔ m = [] := by
  cases m with
  | nil => simp [collapse]
  | cons x xs =>
    simp only [collapse]
    cases h : collapse tagOf xs with
    | nil => simp
    | cons r rs =>
      by_cases hc : x + 1 = r.first ∧ tagOf x = r.tag <;> simp [hc]

theorem collapse_wf {tagOf : Nat → Nat} {m : List Nat} :
    ∀ r ∈ collapse tagOf m, r.first ≤ r.last := by
  induction m with
  | nil => intro r hr; cases hr
  | cons x xs ih =>
    intro q hq
    simp only [collapse] at hq
    split at hq
    · rcases List.mem_cons.mp hq with rfl | h2
      · exact Nat.le_refl _
      · cases h2
    · rename_i r rs heq
      have hr : r.first ≤ r.last := ih r (by rw [heq]; exact List.mem_cons_self r rs)
      split at hq
      · rename_i hc
        rcases List.mem_cons.mp hq with rfl | h2
        · show x ≤ r.last
          omega
        · exact ih q (by rw [heq]; exact List.mem_cons_of_mem _ h2)
      · rcases List.mem_cons.mp hq with rfl | h2
        · exact Nat.le_refl _
        · exact ih q (by rw [heq]; exact h2)

theorem collapse_tags {tagOf : Nat → Nat} {m : List Nat} :
    ∀ r ∈ collapse tagOf m, ∀ y, r.first ≤ y → y ≤ r.last → tagOf y = r.tag := by
  induction m with
  | nil => intro r hr; cases hr
  | cons x xs ih =>
    intro q hq y h1 h2
    simp only [collapse] at hq
    split at hq
    · rcases List.mem_cons.mp hq with rfl | h3
      · have hy : y = x := by
          simp only [] at h1 h2
          omega
        rw [hy]
      · cases h3
    · rename_i r rs heq
      split at hq
      · rename_i hc
        rcases List.mem_cons.mp hq with rfl | h3
        · show tagOf y = r.tag
          have h1x : x ≤ y := h1
          have h2r : y ≤ r.last := h2
          rcases Nat.eq_or_lt_of_le h1x with rfl | hlt
          · exact hc.2
          · exact ih r (by rw [heq]; exact List.mem_cons_self r rs) y (by omega) h2r
        · exact ih q (by rw [heq]; exact List.mem_cons_of_mem _ h3) y h1 h2
      · rcases List.mem_cons.mp hq with rfl | h3
        · have hy : y = x := by
            simp only [] at h1 h2
            omega
          rw [hy]
        · exact ih q (by rw [heq]; exact h3) y h1 h2

theorem expandRange_split {f m l t1 t2 t3 : Nat} (h1 : f ≤ m) (h2 : m + 1 ≤ l) :
    expandRange ⟨f, l, t1⟩ = expandRange ⟨f, m, t2⟩ ++ expandRange ⟨m + 1, l, t3⟩ := by
  simp only [expandRange]
  have hsize : l + 1 - f = (m + 1 - f) + (l - m) := by omega
  have hsize2 : l + 1 - (m + 1) = l - m := by omega
  rw [hsize, hsize2, List.range_add, List.map_append, List.map_map]
  congr 1
  apply List.map_congr_left
  intro a ha
  rw [List.mem_range] at ha
  simp only [Function.comp_apply]
  omega

theorem collapse_expand {tagOf : Nat → Nat} {m : List Nat} :
    expandParts (collapse tagOf m) = m := by
  induction m with
  | nil => rfl
  | cons x xs ih =>
    simp only [collapse]
    split
    · rename_i heq
      have : xs = [] := collapse_eq_nil.mp heq
      subst this
      have h1 : List.range 1 = [0] := rfl
      simp [expandParts, expandRange, h1]
    · rename_i r rs heq
      rw [heq] at ih
      split
      · rename_i hc
        have hrwf : r.first ≤ r.last :=
          collapse_wf r (by rw [heq]; exact List.mem_cons_self r rs)
        show expandRange ⟨x, r.last, r.tag⟩ ++ expandParts rs = x :: xs
        rw [@expandRange_split x x r.last r.tag 0 r.tag (Nat.le_refl x) (by omega)]
        have hx : expandRange ⟨x, x, 0⟩ = [x] := by
          simp [expandRange, List.range_succ]
        have hr2 : expandRange ⟨x + 1, r.last, r.tag⟩ = expandRange r := by
          rw [hc.1]
        rw [hx, hr2, List.append_assoc]
        exact congrArg (List.cons x) ih
      · show expandRange ⟨x, x, tagOf x⟩ ++ expandParts (r :: rs) = x :: xs
        have hx : expandRange ⟨x, x, tagOf x⟩ = [x] := by
          simp [expandRange, List.range_succ]
        rw [hx]
        exact congrArg (List.cons x) ih
/-! Properties of `sortDedup`. -/

theorem sortDedup_nodup (l : List Nat) : (sortDedup l).Nodup :=
  (List.perm_insertionSort _ l.dedup).symm.nodup (List.nodup_dedup l)

theorem sortDedup_sorted_le (l : List Nat) : (sortDedup l).Sorted (· ≤ ·) :=
  List.sorted_insertionSort _ _

theorem sorted_lt_of_le_nodup {l : List Nat} (h1 : l.Sorted (· ≤ ·)) (h2 : l.Nodup) :
    l.Sorted (· < ·) :=
  (h1.and h2).imp (fun h => Nat.lt_of_le_of_ne h.1 h.2)

theorem sortDedup_sorted (l : List Nat) : (sortDedup l).Sorted (· < ·) :=
  sorted_lt_of_le_nodup (sortDedup_sorted_le l) (sortDedup_nodup l)

theorem sortDedup_perm (l : List Nat) : (sortDedup l).Perm l.dedup :=
  List.perm_insertionSort _ _

theorem sortDedup_of_sorted {L : List Nat} (h : L.Sorted (· < ·)) : sortDedup L = L := by
  unfold sortDedup
  have hnd : L.Nodup := h.imp (fun hab => Nat.ne_of_lt hab)
  rw [List.dedup_eq_self.mpr hnd]
  exact List.Sorted.insertionSort_eq (h.imp (fun hab => Nat.le_of_lt hab))

/-! Properties of `mergeAdj`: merging preserves well-formedness and the
expanded identifier sequence. -/

theorem mergeAdj_spec {ps : List PrimitiveRange} (hwf : ∀ r ∈ ps, r.first ≤ r.last) :
    (∀ r ∈ mergeAdj ps, r.first ≤ r.last) ∧ expandParts (mergeAdj ps) = expandParts ps := by
  induction ps with
  | nil => exact ⟨fun r hr => (by cases hr), rfl⟩
  | cons r rest ih =>
    have hr : r.first ≤ r.last := hwf r (List.mem_cons_self r rest)
    obtain ⟨ihwf, ihe⟩ := ih (fun q hq => hwf q (List.mem_cons_of_mem _ hq))
    simp only [mergeAdj]
    split
    · rename_i heq
      rw [heq] at ihwf ihe
      constructor
      · intro q hq
        rcases List.mem_cons.mp hq with rfl | h2
        · exact hr
        · cases h2
      · show expandRange r ++ expandParts [] = expandRange r ++ expandParts rest
        rw [ihe]
    · rename_i s qs heq
      rw [heq] at ihwf ihe
      have hs : s.first ≤ s.last := ihwf s (List.mem_cons_self s qs)
      split
      · rename_i hc
        constructor
        · intro q hq
          rcases List.mem_cons.mp hq with rfl | h2
          · show r.first ≤ s.last
            omega
          · exact ihwf q (List.mem_cons_of_mem _ h2)
        · show expandRange ⟨r.first, s.last, r.tag⟩ ++ expandParts qs =
            expandRange r ++ expandParts rest
          rw [@expandRange_split r.first r.last s.last r.tag r.tag s.tag hr (by omega),
            hc.1, List.append_assoc]
          exact congrArg (expandRange r ++ ·) ihe
      · constructor
        · intro q hq
          rcases List.mem_cons.mp hq with rfl | h2
          · exact hr
          · exact ihwf q h2
        · show expandRange r ++ expandParts (s :: qs) = expandRange r ++ expandParts rest
          rw [ihe]

/-! Properties of `mkColl`. -/

theorem toList_mkColl (ps : List PrimitiveRange) : (mkColl ps).toList = expandParts ps := by
  match ps with
  | [] => rfl
  | [r] =>
    show expandRange ⟨r.first, r.last, 0⟩ = expandParts [r]
    show expandRange ⟨r.first, r.last, 0⟩ = expandRange r ++ []
    rw [List.append_nil]
    rfl
  | r1 :: r2 :: rest =>
    show applyWindow 0 (totalSize (r1 :: r2 :: rest)) 1 (expandParts (r1 :: r2 :: rest)) = _
    rw [totalSize_eq]
    exact applyWindow_full rfl

theorem partsOf_mkColl (ps : List PrimitiveRange) : (mkColl ps).partsOf = ps := by
  match ps with
  | [] => rfl
  | [r] => rfl
  | r1 :: r2 :: rest => rfl

/-! Extraction of the well-formedness invariants. -/

theorem rangeWfB_iff {tagOf : Nat → Nat} {r : PrimitiveRange} :
    rangeWfB tagOf r = true ↔
      0 < r.first ∧ r.first ≤ r.last ∧
        ∀ x, r.first ≤ x → x ≤ r.last → tagOf x = r.tag := by
  simp only [rangeWfB, Bool.and_eq_true, decide_eq_true_eq, List.all_eq_true, beq_iff_eq]
  constructor
  · rintro ⟨⟨h1, h2⟩, h3⟩
    exact ⟨h1, h2, fun x hx1 hx2 => h3 x (mem_expandRange.mpr ⟨hx1, hx2⟩)⟩
  · rintro ⟨h1, h2, h3⟩
    refine ⟨⟨h1, h2⟩, fun x hx => ?_⟩
    obtain ⟨hx1, hx2⟩ := mem_expandRange.mp hx
    exact h3 x hx1 hx2

theorem wf_parts {tagOf : Nat → Nat} {C : Collection} (h : C.wfB tagOf = true) :
    ∀ r ∈ C.partsOf, rangeWfB tagOf r = true := by
  cases C with
  | primitive f l t =>
    intro r hr
    rcases List.mem_cons.mp hr with rfl | h2
    · exact h
    · cases h2
  | composite ps s e t =>
    simp only [Collection.wfB, Bool.and_eq_true] at h
    intro r hr
    exact List.all_eq_true.mp h.2 r hr

theorem wf_parts_le {tagOf : Nat → Nat} {C : Collection} (h : C.wfB tagOf = true) :
    ∀ r ∈ C.partsOf, r.first ≤ r.last :=
  fun r hr => (rangeWfB_iff.mp (wf_parts h r hr)).2.1

theorem wf_chain {tagOf : Nat → Nat} {C : Collection} (h : C.wfB tagOf = true) :
    List.Chain' (fun a b : PrimitiveRange => a.last < b.first) C.partsOf := by
  cases C with
  | primitive f l t => simp [Collection.partsOf]
  | composite ps s e t =>
    simp only [Collection.wfB, Bool.and_eq_true] at h
    exact sepB_iff_chain.mp h.1.2

theorem wf_step {tagOf : Nat → Nat} {ps : List PrimitiveRange} {s e t : Nat}
    (h : (Collection.composite ps s e t).wfB tagOf = true) : 1 ≤ t := by
  simp only [Collection.wfB, Bool.and_eq_true, decide_eq_true_eq] at h
  exact h.1.1

/-! Semantic consequences of well-formedness. -/

theorem toList_sorted {tagOf : Nat → Nat} {C : Collection} (h : C.wfB tagOf = true) :
    C.toList.Sorted (· < ·) := by
  cases C with
  | primitive f l t => exact expandRange_sorted _
  | composite ps s e t =>
    exact applyWindow_sorted (wf_step h)
      (sorted_expandParts (wf_parts_le h) (wf_chain h))

theorem len_toList (C : Collection) : C.toList.length = C.len := by
  cases C with
  | primitive f l t => simp [Collection.toList, Collection.len, expandRange_length]
  | composite ps s e t =>
    simp [Collection.toList, Collection.len, applyWindow_length, totalSize_eq]

theorem mem_toList_parts {C : Collection} {x : Nat} (hx : x ∈ C.toList) :
    x ∈ expandParts C.partsOf := by
  cases C with
  | primitive f l t =>
    show x ∈ expandRange ⟨f, l, t⟩ ++ expandParts []
    have hnil : expandParts ([] : List PrimitiveRange) = [] := rfl
    rw [hnil, List.append_nil]
    exact mem_expandRange.mpr (mem_expandRange.mp hx)
  | composite ps s e t => exact mem_applyWindow hx

theorem idTag_eq_of {tagOf : Nat → Nat} {C : Collection} {x : Nat}
    (h1 : ∃ r, r ∈ C.partsOf ∧ r.first ≤ x ∧ x ≤ r.last)
    (h2 : ∀ r ∈ C.partsOf, ∀ y, r.first ≤ y → y ≤ r.last → tagOf y = r.tag) :
    C.idTag x = tagOf x := by
  unfold Collection.idTag
  obtain ⟨r, hr, hb⟩ := h1
  cases hf : C.partsOf.find? (fun q => q.first ≤ x && x ≤ q.last) with
  | none =>
    rw [List.find?_eq_none] at hf
    have := hf r hr
    simp only [Bool.and_eq_true, decide_eq_true_eq] at this
    exact absurd hb this
  | some q =>
    have hmem := List.mem_of_find?_eq_some hf
    have hq := List.find?_some hf
    simp only [Bool.and_eq_true, decide_eq_true_eq] at hq
    exact (h2 q hmem x hq.1 hq.2).symm

theorem idTag_wf {tagOf : Nat → Nat} {C : Collection} {x : Nat}
    (hwf : C.wfB tagOf = true) (hx : x ∈ C.toList) :
    C.idTag x = tagOf x := by
  apply idTag_eq_of
  · exact mem_expandParts.mp (mem_toList_parts hx)
  · intro r hr y hy1 hy2
    exact (rangeWfB_iff.mp (wf_parts hwf r hr)).2.2 y hy1 hy2

theorem pairs_wf {tagOf : Nat → Nat} {C : Collection} (hwf : C.wfB tagOf = true) :
    C.pairs = C.toList.map (fun x => (x, tagOf x)) := by
  unfold Collection.pairs
  apply List.map_congr_left
  intro x hx
  rw [idTag_wf hwf hx]

/-! Semantic description of `fromList`. -/

theorem toList_fromList (tagOf : Nat → Nat) (l : List Nat) :
    (fromList tagOf l).toList = sortDedup l := by
  unfold fromList
  rw [toList_mkColl, collapse_expand]

theorem idTag_fromList {tagOf : Nat → Nat} {l : List Nat} {x : Nat}
    (hx : x ∈ (fromList tagOf l).toList) :
    (fromList tagOf l).idTag x = tagOf x := by
  apply idTag_eq_of
  · apply mem_expandParts.mp
    show x ∈ expandParts (fromList tagOf l).partsOf
    rw [fromList, partsOf_mkColl, collapse_expand]
    rw [toList_fromList] at hx
    exact hx
  · intro r hr y hy1 hy2
    rw [fromList, partsOf_mkColl] at hr
    exact collapse_tags r hr y hy1 hy2

theorem pairs_fromList (tagOf : Nat → Nat) (l : List Nat) :
    (fromList tagOf l).pairs = (sortDedup l).map (fun x => (x, tagOf x)) := by
  unfold Collection.pairs
  rw [toList_fromList]
  apply List.map_congr_left
  intro x hx
  rw [idTag_fromList (by rw [toList_fromList]; exact hx)]
/-! Semantic properties of concatenation. -/

theorem toList_nonwindowed {C : Collection} (h : C.isWindowedComposite = false) :
    C.toList = expandParts C.partsOf := by
  cases C with
  | primitive f l t =>
    show expandRange ⟨f, l, 0⟩ = expandParts [⟨f, l, t⟩]
    show expandRange ⟨f, l, 0⟩ = expandRange ⟨f, l, t⟩ ++ expandParts []
    have hnil : expandParts ([] : List PrimitiveRange) = [] := rfl
    rw [hnil, List.append_nil]
    rfl
  | composite ps s e t =>
    simp only [Collection.isWindowedComposite, Bool.not_eq_false', Bool.and_eq_true,
      beq_iff_eq] at h
    obtain ⟨⟨ht, hs⟩, he⟩ := h
    subst ht
    subst hs
    subst he
    show applyWindow 0 (totalSize ps) 1 (expandParts ps) = expandParts ps
    rw [totalSize_eq]
    exact applyWindow_full rfl

theorem concat_windowed_left {d : Collection} (h : d.isWindowedComposite = true)
    (c : Collection) : d.concat c = .error .CompositionError := by
  simp [Collection.concat, h]

theorem concat_windowed_right {d : Collection} (h : d.isWindowedComposite = true)
    (c : Collection) : c.concat d = .error .CompositionError := by
  simp [Collection.concat, h]

theorem concat_ok_elim {a b c : Collection} (h : a.concat b = .ok c) :
    a.isWindowedComposite = false ∧ b.isWindowedComposite = false ∧
      sepB (sortParts (a.partsOf ++ b.partsOf)) = true ∧
      c = mkColl (mergeAdj (sortParts (a.partsOf ++ b.partsOf))) := by
  unfold Collection.concat at h
  split at h
  · cases h
  · rename_i hw
    simp only [Bool.or_eq_true, not_or, Bool.not_eq_true] at hw
    split at h
    · rename_i hsep
      exact ⟨hw.1, hw.2, hsep, (Except.ok.inj h).symm⟩
    · cases h

theorem sortParts_perm (ps : List PrimitiveRange) : (sortParts ps).Perm ps :=
  List.perm_insertionSort _ ps

theorem concat_check_disjoint {tagOf : Nat → Nat} {a b : Collection}
    (hwa : a.wfB tagOf = true) (hwb : b.wfB tagOf = true)
    (ha : a.isWindowedComposite = false) (hb : b.isWindowedComposite = false)
    (hs : sepB (sortParts (a.partsOf ++ b.partsOf)) = true) :
    ∀ x, x ∈ a.toList → x ∈ b.toList → False := by
  intro x hxa hxb
  have hperm : (expandParts (sortParts (a.partsOf ++ b.partsOf))).Perm
      (expandParts a.partsOf ++ expandParts b.partsOf) := by
    have h1 := expandParts_perm (sortParts_perm (a.partsOf ++ b.partsOf))
    rw [expandParts_append] at h1
    exact h1
  have hwfps : ∀ r ∈ sortParts (a.partsOf ++ b.partsOf), r.first ≤ r.last := by
    intro r hr
    have hmem : r ∈ a.partsOf ++ b.partsOf :=
      (sortParts_perm _).mem_iff.mp hr
    rcases List.mem_append.mp hmem with h | h
    · exact wf_parts_le hwa r h
    · exact wf_parts_le hwb r h
  have hsorted := sorted_expandParts hwfps (sepB_iff_chain.mp hs)
  have hnodup : (expandParts a.partsOf ++ expandParts b.partsOf).Nodup :=
    hperm.nodup (hsorted.imp (fun hab => Nat.ne_of_lt hab))
  obtain ⟨_, _, hdisj⟩ := List.nodup_append.mp hnodup
  exact hdisj (toList_nonwindowed ha ▸ hxa) (toList_nonwindowed hb ▸ hxb)

theorem concat_overlap {tagOf : Nat → Nat} {a b : Collection}
    (hwa : a.wfB tagOf = true) (hwb : b.wfB tagOf = true)
    (ha : a.isWindowedComposite = false) (hb : b.isWindowedComposite = false)
    {x : Nat} (hxa : x ∈ a.toList) (hxb : x ∈ b.toList) :
    a.concat b = .error .OverlapError := by
  have hsep : sepB (sortParts (a.partsOf ++ b.partsOf)) = false := by
    cases hb2 : sepB (sortParts (a.partsOf ++ b.partsOf)) with
    | false => rfl
    | true => exact (concat_check_disjoint hwa hwb ha hb hb2 x hxa hxb).elim
  unfold Collection.concat
  rw [if_neg (by rw [ha, hb]; simp)]
  rw [if_neg (by rw [hsep]; simp)]
/-! Semantic properties of slicing. -/

theorem resolvePoint_le (n : Nat) (v : Int) : resolvePoint n v ≤ n := by
  unfold resolvePoint
  split <;> omega

theorem resolveStop_le (n : Nat) (v : Int) : resolveStop n v ≤ n := by
  unfold resolveStop
  split <;> omega

theorem resolvePoint_natCast {n s : Nat} (h : s ≤ n) : resolvePoint n (s : Int) = s := by
  unfold resolvePoint
  split <;> omega

theorem resolveStop_natCast {n e : Nat} (h : e ≤ n) : resolveStop n (e : Int) = e := by
  unfold resolveStop
  split <;> omega

theorem winLen_compose {s0 e0 t0 s e t N : Nat} (ht0 : 1 ≤ t0) (ht : 1 ≤ t) :
    winLen (s0 + s * t0) (min (s0 + e * t0) e0) (t0 * t) N =
      winLen s e t (winLen s0 e0 t0 N) := by
  have htt : 1 ≤ t0 * t := Nat.mul_le_mul ht0 ht
  have hchar : ∀ k : Nat, k < winLen (s0 + s * t0) (min (s0 + e * t0) e0) (t0 * t) N ↔
      k < winLen s e t (winLen s0 e0 t0 N) := by
    intro k
    rw [lt_winLen_iff htt, lt_winLen_iff ht]
    have h3 := @lt_winLen_iff (s + k * t) s0 e0 t0 N ht0
    have harith : (s0 + s * t0) + k * (t0 * t) = s0 + (s + k * t) * t0 := by ring
    rw [harith]
    have hc1 : (s + k * t) * t0 < e * t0 ↔ s + k * t < e :=
      Nat.mul_lt_mul_right (by omega)
    generalize hX : (s + k * t) * t0 = X at h3 hc1 ⊢
    generalize hB : e * t0 = B at hc1 ⊢
    omega
  apply Nat.le_antisymm
  · by_contra hc
    exact absurd ((hchar _).mp (Nat.lt_of_not_le hc)) (Nat.lt_irrefl _)
  · by_contra hc
    exact absurd ((hchar _).mpr (Nat.lt_of_not_le hc)) (Nat.lt_irrefl _)

theorem slice_neg {C : Collection} {start? stop? : Option Int} {st : Int}
    (h : st < 1) : C.slice start? stop? st = .error .UnsupportedSliceError := by
  unfold Collection.slice
  rw [if_pos h]

theorem slice_primitive_eq {f l tag : Nat} {start? stop? : Option Int} {st : Int}
    (hst : 1 ≤ st) :
    (Collection.primitive f l tag).slice start? stop? st =
      (if st.toNat = 1 then
        if resolvePoint (l + 1 - f) (start?.getD 0) <
            resolveStop (l + 1 - f) (stop?.getD ((l + 1 - f : Nat) : Int)) then
          .ok (.primitive (f + resolvePoint (l + 1 - f) (start?.getD 0))
            (f + (resolveStop (l + 1 - f) (stop?.getD ((l + 1 - f : Nat) : Int)) - 1)) tag)
        else .ok (.composite [] 0 0 1)
      else .ok (.composite [⟨f, l, tag⟩] (resolvePoint (l + 1 - f) (start?.getD 0))
        (resolveStop (l + 1 - f) (stop?.getD ((l + 1 - f : Nat) : Int))) st.toNat)) := by
  unfold Collection.slice
  rw [if_neg (by omega : ¬ st < 1)]
  rfl

theorem slice_composite_eq {ps : List PrimitiveRange} {s0 e0 t0 : Nat}
    {start? stop? : Option Int} {st : Int} (hst : 1 ≤ st) :
    (Collection.composite ps s0 e0 t0).slice start? stop? st =
      .ok (.composite ps
        (s0 + resolvePoint (winLen s0 e0 t0 (totalSize ps)) (start?.getD 0) * t0)
        (min (s0 + resolveStop (winLen s0 e0 t0 (totalSize ps))
          (stop?.getD (winLen s0 e0 t0 (totalSize ps))) * t0) e0)
        (t0 * st.toNat)) := by
  unfold Collection.slice
  rw [if_neg (by omega : ¬ st < 1)]
  rfl
theorem slice_ok {tagOf : Nat → Nat} {C : Collection} (hwf : C.wfB tagOf = true)
    {st : Int} (hst : 1 ≤ st) (start? stop? : Option Int) :
    ∃ D, C.slice start? stop? st = .ok D ∧
      D.len = winLen (resolvePoint C.len (start?.getD 0))
        (resolveStop C.len (stop?.getD C.len)) st.toNat C.len ∧
      D.toList.length = D.len ∧
      ∀ i, i < D.len → D.toList.getD i 0 =
        C.toList.getD (resolvePoint C.len (start?.getD 0) + i * st.toNat) 0 := by
  have ht : 1 ≤ st.toNat := by omega
  cases C with
  | primitive f l tag =>
    rw [show (Collection.primitive f l tag).len = l + 1 - f from rfl]
    rw [slice_primitive_eq hst]
    have hs_le := resolvePoint_le (l + 1 - f) (start?.getD 0)
    have he_le := resolveStop_le (l + 1 - f) (stop?.getD ((l + 1 - f : Nat) : Int))
    by_cases h1 : st.toNat = 1
    · rw [if_pos h1]
      by_cases h2 : resolvePoint (l + 1 - f) (start?.getD 0) <
          resolveStop (l + 1 - f) (stop?.getD ((l + 1 - f : Nat) : Int))
      · rw [if_pos h2]
        refine ⟨_, rfl, ?_, len_toList _, ?_⟩
        · show (f + (resolveStop (l + 1 - f) (stop?.getD ((l + 1 - f : Nat) : Int)) - 1)) + 1 -
            (f + resolvePoint (l + 1 - f) (start?.getD 0)) = _
          rw [h1]
          unfold winLen
          omega
        · intro i hi
          rw [show (Collection.primitive (f + resolvePoint (l + 1 - f) (start?.getD 0))
            (f + (resolveStop (l + 1 - f) (stop?.getD ((l + 1 - f : Nat) : Int)) - 1)) tag).len =
            (f + (resolveStop (l + 1 - f) (stop?.getD ((l + 1 - f : Nat) : Int)) - 1)) + 1 -
            (f + resolvePoint (l + 1 - f) (start?.getD 0)) from rfl] at hi
          show (expandRange ⟨f + resolvePoint (l + 1 - f) (start?.getD 0),
            f + (resolveStop (l + 1 - f) (stop?.getD ((l + 1 - f : Nat) : Int)) - 1), 0⟩).getD i 0 =
            (expandRange ⟨f, l, 0⟩).getD
              (resolvePoint (l + 1 - f) (start?.getD 0) + i * st.toNat) 0
          rw [expandRange_getD (show i < (f + (resolveStop (l + 1 - f)
            (stop?.getD ((l + 1 - f : Nat) : Int)) - 1)) + 1 -
            (f + resolvePoint (l + 1 - f) (start?.getD 0)) from hi)]
          rw [expandRange_getD (show resolvePoint (l + 1 - f) (start?.getD 0) + i * st.toNat <
            l + 1 - f by rw [h1]; omega)]
          rw [h1]
          show f + resolvePoint (l + 1 - f) (start?.getD 0) + i =
            f + (resolvePoint (l + 1 - f) (start?.getD 0) + i * 1)
          omega
      · rw [if_neg h2]
        refine ⟨_, rfl, ?_, len_toList _, ?_⟩
        · show winLen 0 0 1 (totalSize []) = _
          rw [h1]
          unfold winLen totalSize
          omega
        · intro i hi
          rw [show (Collection.composite [] 0 0 1).len = winLen 0 0 1 (totalSize []) from rfl] at hi
          unfold winLen totalSize at hi
          omega
    · rw [if_neg h1]
      refine ⟨_, rfl, ?_, len_toList _, ?_⟩
      · show winLen (resolvePoint (l + 1 - f) (start?.getD 0))
          (resolveStop (l + 1 - f) (stop?.getD ((l + 1 - f : Nat) : Int))) st.toNat
          (totalSize [⟨f, l, tag⟩]) = _
        rw [show totalSize [(⟨f, l, tag⟩ : PrimitiveRange)] = l + 1 - f from rfl]
      · intro i hi
        rw [show (Collection.composite [(⟨f, l, tag⟩ : PrimitiveRange)]
          (resolvePoint (l + 1 - f) (start?.getD 0))
          (resolveStop (l + 1 - f) (stop?.getD ((l + 1 - f : Nat) : Int))) st.toNat).len =
          winLen (resolvePoint (l + 1 - f) (start?.getD 0))
            (resolveStop (l + 1 - f) (stop?.getD ((l + 1 - f : Nat) : Int))) st.toNat
            (l + 1 - f) from rfl] at hi
        have hexp : expandParts [(⟨f, l, tag⟩ : PrimitiveRange)] = expandRange ⟨f, l, 0⟩ := by
          show expandRange ⟨f, l, tag⟩ ++ expandParts [] = _
          have hnil : expandParts ([] : List PrimitiveRange) = [] := rfl
          rw [hnil, List.append_nil]
          rfl
        show (applyWindow (resolvePoint (l + 1 - f) (start?.getD 0))
          (resolveStop (l + 1 - f) (stop?.getD ((l + 1 - f : Nat) : Int))) st.toNat
          (expandParts [(⟨f, l, tag⟩ : PrimitiveRange)])).getD i 0 =
          (expandRange ⟨f, l, 0⟩).getD
            (resolvePoint (l + 1 - f) (start?.getD 0) + i * st.toNat) 0
        rw [hexp]
        apply applyWindow_getD
        rw [expandRange_length]
        exact hi
  | composite ps s0 e0 t0 =>
    have ht0 : 1 ≤ t0 := wf_step hwf
    rw [show (Collection.composite ps s0 e0 t0).len = winLen s0 e0 t0 (totalSize ps) from rfl]
    rw [slice_composite_eq hst]
    refine ⟨_, rfl, ?_, len_toList _, ?_⟩
    · exact winLen_compose ht0 ht
    · intro i hi
      rw [show (Collection.composite ps
        (s0 + resolvePoint (winLen s0 e0 t0 (totalSize ps)) (start?.getD 0) * t0)
        (min (s0 + resolveStop (winLen s0 e0 t0 (totalSize ps))
          (stop?.getD ((winLen s0 e0 t0 (totalSize ps) : Nat) : Int)) * t0) e0)
        (t0 * st.toNat)).len =
        winLen (s0 + resolvePoint (winLen s0 e0 t0 (totalSize ps)) (start?.getD 0) * t0)
          (min (s0 + resolveStop (winLen s0 e0 t0 (totalSize ps))
            (stop?.getD ((winLen s0 e0 t0 (totalSize ps) : Nat) : Int)) * t0) e0)
          (t0 * st.toNat) (totalSize ps) from rfl] at hi
      have hi2 : i < winLen (resolvePoint (winLen s0 e0 t0 (totalSize ps)) (start?.getD 0))
          (resolveStop (winLen s0 e0 t0 (totalSize ps))
            (stop?.getD ((winLen s0 e0 t0 (totalSize ps) : Nat) : Int)))
          st.toNat (winLen s0 e0 t0 (totalSize ps)) := by
        rw [← winLen_compose ht0 ht]
        exact hi
      show (applyWindow (s0 + resolvePoint (winLen s0 e0 t0 (totalSize ps)) (start?.getD 0) * t0)
        (min (s0 + resolveStop (winLen s0 e0 t0 (totalSize ps))
          (stop?.getD ((winLen s0 e0 t0 (totalSize ps) : Nat) : Int)) * t0) e0)
        (t0 * st.toNat) (expandParts ps)).getD i 0 =
        (applyWindow s0 e0 t0 (expandParts ps)).getD
          (resolvePoint (winLen s0 e0 t0 (totalSize ps)) (start?.getD 0) + i * st.toNat) 0
      rw [applyWindow_getD (by rw [← totalSize_eq]; exact hi)]
      rw [applyWindow_getD (by
        rw [← totalSize_eq]
        have hb := (lt_winLen_iff ht).mp hi2
        omega)]
      congr 1
      ring

/-! Claim theorems. -/

/-- Claim C1, counterexample: the Collection built from the explicit
out-of-order list `[7, 3, 8, 5, 2]` (all identifiers known) iterates as the
ascending `[2, 3, 5, 7, 8]`, not in the caller's requested order — exactly
what the test `test_list_to_GIDCollection` asserts.  Construction sorts
silently, refuting the claim as stated. -/
theorem C1_counterexample :
    (fromList (fun _ => 0) [7, 3, 8, 5, 2]).toList = [2, 3, 5, 7, 8] ∧
      [2, 3, 5, 7, 8] ≠ [7, 3, 8, 5, 2] := by
  decide

/-- Claim C1, amended: for every Collection constructed from an explicit
identifier list, iterating the Collection yields the input identifiers
sorted strictly ascending and deduplicated — the caller's requested order
is discarded. -/
theorem C1_fromList_sorts (tagOf : Nat → Nat) (l : List Nat) :
    (fromList tagOf l).toList.Sorted (· < ·) ∧
      (fromList tagOf l).toList.Perm l.dedup := by
  rw [toList_fromList]
  exact ⟨sortDedup_sorted l, sortDedup_perm l⟩

/-- Claim C2, counterexample: with `a` holding the numerically larger
identifiers (`a = 11..25`, `b = 1..10`, the `nodes_b + nodes_a` scenario of
`test_GIDCollection_addition`), `a + b` succeeds but iterates ascending as
`1..25`, not as `a`'s identifiers followed by `b`'s. -/
theorem C2_counterexample :
    (Collection.primitive 11 25 0).concat (.primitive 1 10 0) =
      .ok (.primitive 1 25 0) ∧
    (Collection.primitive 1 25 0).toList ≠
      (Collection.primitive 11 25 0).toList ++ (Collection.primitive 1 10 0).toList := by
  decide

/-- Claim C2, amended: for disjoint well-formed Collections, `a + b` denotes
exactly the union of the two identifier sequences, re-sorted into ascending
canonical order (so `a`'s identifiers come first exactly when they are the
numerically smaller ones). -/
theorem C2_concat_sorted_union (tagOf : Nat → Nat) (a b c : Collection)
    (hwa : a.wfB tagOf = true) (hwb : b.wfB tagOf = true)
    (h : a.concat b = .ok c) :
    c.toList.Sorted (· < ·) ∧ c.toList.Perm (a.toList ++ b.toList) := by
  obtain ⟨ha, hb, hsep, hc⟩ := concat_ok_elim h
  subst hc
  have hwfps : ∀ r ∈ sortParts (a.partsOf ++ b.partsOf), r.first ≤ r.last := by
    intro r hr
    rcases List.mem_append.mp ((sortParts_perm _).mem_iff.mp hr) with h2 | h2
    · exact wf_parts_le hwa r h2
    · exact wf_parts_le hwb r h2
  obtain ⟨hmwf, hme⟩ := mergeAdj_spec hwfps
  constructor
  · rw [toList_mkColl, hme]
    exact sorted_expandParts hwfps (sepB_iff_chain.mp hsep)
  · rw [toList_mkColl, hme]
    have p1 := expandParts_perm (sortParts_perm (a.partsOf ++ b.partsOf))
    rw [expandParts_append, ← toList_nonwindowed ha, ← toList_nonwindowed hb] at p1
    exact p1

/-- Claim C2, witness: the amended theorem at the `nodes_b + nodes_a`
inputs of the test: the concatenation succeeds and denotes `1..25`
sorted ascending. -/
theorem C2_witness :
    (Collection.primitive 11 25 0).concat (.primitive 1 10 0) =
      .ok (.primitive 1 25 0) ∧
    ((Collection.primitive 1 25 0).toList.Sorted (· < ·) ∧
      (Collection.primitive 1 25 0).toList.Perm
        ((Collection.primitive 11 25 0).toList ++ (Collection.primitive 1 10 0).toList)) :=
  ⟨by decide,
    C2_concat_sorted_union (fun _ => 0) _ _ _ (by decide) (by decide) (by decide)⟩

/-- Claim C5: a composite Collection that carries a non-trivial slice
window refuses concatenation in either operand position, failing with
`CompositionError`. -/
theorem C5_windowed_concat (d : Collection) (h : d.isWindowedComposite = true)
    (c : Collection) :
    d.concat c = .error .CompositionError ∧ c.concat d = .error .CompositionError :=
  ⟨concat_windowed_left h c, concat_windowed_right h c⟩

/-- Claim C5, witness: the `test_composite_wrong_slice` scenario: slicing
the concatenation of `1..10` and `11..17` with step two yields a windowed
composite, and adding `18..30` to it (in either order) fails with
`CompositionError`. -/
theorem C5_witness :
    (Collection.composite [⟨1, 10, 0⟩, ⟨11, 17, 1⟩] 0 17 1).slice none none 2 =
      .ok (.composite [⟨1, 10, 0⟩, ⟨11, 17, 1⟩] 0 17 2) ∧
    (Collection.composite [⟨1, 10, 0⟩, ⟨11, 17, 1⟩] 0 17 2).isWindowedComposite = true ∧
    (Collection.composite [⟨1, 10, 0⟩, ⟨11, 17, 1⟩] 0 17 2).concat (.primitive 18 30 2) =
      .error .CompositionError ∧
    (Collection.primitive 18 30 2).concat
      (.composite [⟨1, 10, 0⟩, ⟨11, 17, 1⟩] 0 17 2) = .error .CompositionError :=
  ⟨by decide, by decide,
    (C5_windowed_concat _ (by decide) (.primitive 18 30 2)).1,
    (C5_windowed_concat _ (by decide) (.primitive 18 30 2)).2⟩

/-- Claim C6: slicing with a negative step fails with
`UnsupportedSliceError`, while slicing with any step of at least one
succeeds, for every Collection and every pair of slice bounds. -/
theorem C6_slice_step (C : Collection) (a b : Option Int) (st : Int) :
    (st < 0 → C.slice a b st = .error .UnsupportedSliceError) ∧
    (1 ≤ st → ∃ D, C.slice a b st = .ok D) := by
  constructor
  · intro h
    exact slice_neg (by omega)
  · intro h
    cases C with
    | primitive f l tag =>
      rw [slice_primitive_eq h]
      split
      · split
        · exact ⟨_, rfl⟩
        · exact ⟨_, rfl⟩
      · exact ⟨_, rfl⟩
    | composite ps s0 e0 t0 =>
      rw [slice_composite_eq h]
      exact ⟨_, rfl⟩

/-- Claim C6, witness: the `test_slicing` scenario: `n[::-3]` on `1..10`
fails with `UnsupportedSliceError`, while the skip-step `n[::2]`
succeeds. -/
theorem C6_witness :
    ((Collection.primitive 1 10 0).slice none none (-3) =
      .error .UnsupportedSliceError) ∧
    (∃ D, (Collection.primitive 1 10 0).slice none none 2 = .ok D) :=
  ⟨(C6_slice_step (.primitive 1 10 0) none none (-3)).1 (by decide),
    (C6_slice_step (.primitive 1 10 0) none none 2).2 (by decide)⟩

/-- Claim C7, counterexample: an overlapping pair in which one operand is a
windowed composite fails with `CompositionError`, not `OverlapError` — the
windowed-composite check of spec §4.3 is applied before the disjointness
check, so not every non-disjoint concatenation fails with `OverlapError`. -/
theorem C7_counterexample :
    (5 ∈ (Collection.composite [⟨1, 10, 0⟩, ⟨11, 17, 1⟩] 0 17 2).toList ∧
      5 ∈ (Collection.primitive 5 6 0).toList) ∧
    (Collection.composite [⟨1, 10, 0⟩, ⟨11, 17, 1⟩] 0 17 2).concat
      (.primitive 5 6 0) = .error .CompositionError ∧
    CollError.CompositionError ≠ CollError.OverlapError := by
  decide

/-- Claim C7, amended: for well-formed Collections neither of which is a
windowed composite, concatenation of non-disjoint identifier sets fails
with `OverlapError`; and whenever concatenation succeeds the identifier
sets were disjoint. -/
theorem C7_overlap (tagOf : Nat → Nat) (a b : Collection)
    (hwa : a.wfB tagOf = true) (hwb : b.wfB tagOf = true) :
    (a.isWindowedComposite = false → b.isWindowedComposite = false →
      ∀ x, x ∈ a.toList → x ∈ b.toList → a.concat b = .error .OverlapError) ∧
    (∀ c, a.concat b = .ok c → ∀ x, x ∈ a.toList → x ∉ b.toList) := by
  constructor
  · intro ha hb x hxa hxb
    exact concat_overlap hwa hwb ha hb hxa hxb
  · intro c hok x hxa hxb
    obtain ⟨ha, hb, hsep, _⟩ := concat_ok_elim hok
    exact concat_check_disjoint hwa hwb ha hb hsep x hxa hxb

/-- Claim C7, witness: the `gc_a + gc_c` scenario of
`test_GIDCollection_addition`: `1..10` and the scattered set
`{6, 8, 10, 12, 14}` overlap, and their concatenation fails with
`OverlapError`. -/
theorem C7_witness :
    (Collection.primitive 1 10 0).concat
      (.composite [⟨6, 6, 0⟩, ⟨8, 8, 0⟩, ⟨10, 10, 0⟩, ⟨12, 12, 0⟩, ⟨14, 14, 0⟩] 0 5 1) =
      .error .OverlapError :=
  (C7_overlap (fun _ => 0) _ _ (by decide) (by decide)).1 (by decide) (by decide)
    6 (by decide) (by decide)
/-- Claim C3: for every well-formed Collection and valid slice `(s, e, t)`
with `t ≥ 1`, the sliced Collection has length `ceil(max 0 (e - s) / t)`
(in `Nat` arithmetic, `(e - s + (t - 1)) / t`), and its `i`-th element is
the `(s + i*t)`-th element of the original — including composites, where
the step runs over the global logical index across component boundaries. -/
theorem C3_slice_len_elements (tagOf : Nat → Nat) (C : Collection)
    (hwf : C.wfB tagOf = true) (s e t : Nat) (ht : 1 ≤ t)
    (hs : s ≤ C.len) (he : e ≤ C.len) :
    ∃ D, C.slice (some (s : Int)) (some (e : Int)) (t : Int) = .ok D ∧
      D.len = (e - s + (t - 1)) / t ∧
      D.toList.length = D.len ∧
      ∀ i, i < D.len → D.toList.getD i 0 = C.toList.getD (s + i * t) 0 := by
  obtain ⟨D, h1, h2, h3, h4⟩ := slice_ok hwf
    (show (1 : Int) ≤ (t : Int) by exact_mod_cast ht) (some (s : Int)) (some (e : Int))
  refine ⟨D, h1, ?_, h3, ?_⟩
  · rw [h2]
    rw [show ((some (s : Int)).getD 0) = (s : Int) from rfl]
    rw [show ((some (e : Int)).getD (C.len : Int)) = (e : Int) from rfl]
    rw [resolvePoint_natCast hs, resolveStop_natCast he]
    rw [show ((t : Int)).toNat = t from rfl]
    unfold winLen
    rw [Nat.min_eq_left he]
  · intro i hi
    have h5 := h4 i hi
    rw [show ((some (s : Int)).getD 0) = (s : Int) from rfl] at h5
    rw [resolvePoint_natCast hs] at h5
    rw [show ((t : Int)).toNat = t from rfl] at h5
    exact h5

/-- Claim C3, witness: the `test_composite_GIDCollection` scenario: the
composite of `1..10` and `26..55` sliced as `[0:40:2]` has length twenty
and steps over the global logical index across the component boundary. -/
theorem C3_witness :
    ∃ D, (Collection.composite [⟨1, 10, 0⟩, ⟨26, 55, 2⟩] 0 40 1).slice
        (some ((0 : Nat) : Int)) (some ((40 : Nat) : Int)) ((2 : Nat) : Int) = .ok D ∧
      D.len = (40 - 0 + (2 - 1)) / 2 ∧
      D.toList.length = D.len ∧
      ∀ i, i < D.len → D.toList.getD i 0 =
        (Collection.composite [⟨1, 10, 0⟩, ⟨26, 55, 2⟩] 0 40 1).toList.getD (0 + i * 2) 0 :=
  C3_slice_len_elements (fun x => if x ≤ 10 then 0 else 2) _ (by decide)
    0 40 2 (by decide) (by decide) (by decide)

/-- Claim C4: for every well-formed Collection (sliced composites
included), rebuilding a Collection from its explicitly materialised
identifier list yields a Collection equal to the original under the
expansion-based equality — two construction paths denoting the same
ordered (identifier, tag) sequence compare equal. -/
theorem C4_roundTrip (tagOf : Nat → Nat) (C : Collection)
    (hwf : C.wfB tagOf = true) :
    Collection.beq (fromList tagOf C.toList) C = true := by
  unfold Collection.beq
  rw [beq_iff_eq]
  rw [pairs_fromList]
  rw [pairs_wf hwf]
  rw [sortDedup_of_sorted (toList_sorted hwf)]

/-- Claim C4, witness: the `nodes_step == GIDCollection(nodes_list)`
scenario of `test_composite_GIDCollection`: the stepped composite over
`1..10` and `26..55` equals the Collection rebuilt from its list. -/
theorem C4_witness :
    Collection.beq
      (fromList (fun x => if x ≤ 10 then 0 else 2)
        (Collection.composite [⟨1, 10, 0⟩, ⟨26, 55, 2⟩] 0 40 2).toList)
      (Collection.composite [⟨1, 10, 0⟩, ⟨26, 55, 2⟩] 0 40 2) = true :=
  C4_roundTrip (fun x => if x ≤ 10 then 0 else 2) _ (by decide)

/-- Claim C8: integer indexing supports negative indices counted from the
end — `C[-j]` equals `C[len C - j]` for `1 ≤ j ≤ len C` — and indexing at
any integer at or beyond the length fails with `IndexOutOfRangeError`. -/
theorem C8_negative_indexing (C : Collection) (k : Nat)
    (h1 : 1 ≤ k) (h2 : k ≤ C.len) :
    C.get (-(k : Int)) = C.get ((C.len - k : Nat) : Int) ∧
    ∀ i : Int, (C.len : Int) ≤ i → C.get i = .error .IndexOutOfRangeError := by
  constructor
  · have hidx : normIdx C.len (-(k : Int)) = normIdx C.len ((C.len - k : Nat) : Int) := by
      unfold normIdx
      split_ifs <;> omega
    unfold Collection.get
    rw [hidx]
  · intro i hi
    unfold Collection.get
    rw [if_neg (by unfold normIdx; split_ifs <;> omega)]

/-- Claim C8, witness: on the five-element Collection `1..5` (the
`test_indexing` scenario), `n[-1]` equals `n[len - 1]` and `n[7]` fails
with `IndexOutOfRangeError`. -/
theorem C8_witness :
    (Collection.primitive 1 5 0).get (-1) =
      (Collection.primitive 1 5 0).get
        (((Collection.primitive 1 5 0).len - 1 : Nat) : Int) ∧
    (Collection.primitive 1 5 0).get 7 = .error .IndexOutOfRangeError :=
  ⟨(C8_negative_indexing (.primitive 1 5 0) 1 (by decide) (by decide)).1,
    (C8_negative_indexing (.primitive 1 5 0) 1 (by decide) (by decide)).2 7 (by decide)⟩

/-- Claim C9: construction from an explicit list silently deduplicates:
any two lists with the same identifier sets (up to duplication and order)
construct the very same Collection — in particular
`Collection([5,3,5,3,5]) = Collection([3,5])`, with no error raised
(construction is total). -/
theorem C9_dedup_construction (tagOf : Nat → Nat) (l1 l2 : List Nat)
    (h : l1.dedup.Perm l2.dedup) : fromList tagOf l1 = fromList tagOf l2 := by
  unfold fromList
  have hsd : sortDedup l1 = sortDedup l2 := by
    apply List.eq_of_perm_of_sorted ?_ (sortDedup_sorted_le l1) (sortDedup_sorted_le l2)
    exact (sortDedup_perm l1).trans (h.trans (sortDedup_perm l2).symm)
  rw [hsd]

/-- Claim C9, witness: `Collection([5,3,5,3,5])` and `Collection([3,5])`
are the same Collection, hence equal under the Collection equality. -/
theorem C9_witness :
    fromList (fun _ => 0) [5, 3, 5, 3, 5] = fromList (fun _ => 0) [3, 5] ∧
    Collection.beq (fromList (fun _ => 0) [5, 3, 5, 3, 5])
      (fromList (fun _ => 0) [3, 5]) = true := by
  have h := C9_dedup_construction (fun _ => 0) [5, 3, 5, 3, 5] [3, 5] (by decide)
  refine ⟨h, ?_⟩
  rw [h]
  simp [Collection.beq]

/-- Claim C10: for every well-formed Collection and valid index, `C[i]`
returns the single-element Collection built from the `i`-th identifier of
the iteration list (not the bare integer), while the iteration list itself
holds the raw integer identifiers. -/
theorem C10_indexing_returns_collection (tagOf : Nat → Nat) (C : Collection)
    (hwf : C.wfB tagOf = true) (i : Nat) (hi : i < C.len) :
    C.get (i : Int) = .ok (fromList tagOf [C.toList.getD i 0]) := by
  have hx : C.toList.getD i 0 ∈ C.toList := by
    rw [List.getD_eq_getElem _ _ (by rw [len_toList]; exact hi)]
    exact List.getElem_mem _
  have hn : normIdx C.len (i : Int) = (i : Int) := by
    unfold normIdx
    rw [if_neg (by omega)]
  unfold Collection.get
  rw [hn]
  rw [if_pos (show (0 : Int) ≤ (i : Int) ∧ (i : Int) < (C.len : Int) by omega)]
  rw [show ((i : Int)).toNat = i from rfl]
  have hfl : fromList tagOf [C.toList.getD i 0] =
      .primitive (C.toList.getD i 0) (C.toList.getD i 0)
        (tagOf (C.toList.getD i 0)) := rfl
  rw [hfl]
  rw [idTag_wf hwf hx]

/-- Claim C10, witness: on `1..5`, indexing at two returns the
single-element Collection of the third identifier. -/
theorem C10_witness :
    (Collection.primitive 1 5 0).get ((2 : Nat) : Int) =
      .ok (fromList (fun _ => 0) [(Collection.primitive 1 5 0).toList.getD 2 0]) :=
  C10_indexing_returns_collection (fun _ => 0) (.primitive 1 5 0) (by decide) 2 (by decide)
end NestColl
